import Mathlib

/-!
Shallow embedding of the location algebra (`Range`, `Length`, `Loc`) and of the
stream-parsing layer (tag, optional and repetition parsers) of the
`ast-toolkit2` Rust crate, together with theorems settling the stated
properties of its specification.

Machine integers: `u64` values are modelled as `Nat`, with the saturating
operations made explicit. `u64::saturating_add` becomes `satAdd`;
`u64::saturating_sub` is exactly `Nat` subtraction (which already stops at
zero). Unchecked Rust `u64` addition, which wraps modulo `2 ^ 64` in release
builds, is modelled by `wrapAdd`. Unchecked Rust subtraction, which aborts on
underflow, is modelled where relevant by the checked `csub`, so that a proof
that `csub` never returns `none` captures the absence of underflow aborts.
-/

namespace AstToolkit

/-- The largest representable `u64` value, that is `2 ^ 64 - 1`. -/
def U64MAX : Nat := 18446744073709551615

/-- Models `u64::saturating_add`. -/
def satAdd (a b : Nat) : Nat := if U64MAX < a + b then U64MAX else a + b

/-- Models unchecked `u64` addition, which wraps modulo `2 ^ 64` in release builds. -/
def wrapAdd (a b : Nat) : Nat := (a + b) % 18446744073709551616

/-- Models unchecked `u64` subtraction: `none` exactly when the Rust code would underflow. -/
def csub (a b : Nat) : Option Nat := if b ≤ a then some (a - b) else none

theorem satAdd_eq_min (a b : Nat) : satAdd a b = min (a + b) U64MAX := by
  unfold satAdd U64MAX
  split <;> omega

/-- Models `Length` from src/src/loc/range.rs: the length of a `Range`, either a
concrete number of elements or indefinite (continues to the end of the sequence). -/
inductive Length : Type where
  | Fixed (n : Nat)
  | Indefinite
deriving DecidableEq

/-- Models `Range` from src/src/loc/range.rs: a half-open interval given by a start
position and a `Length`. -/
structure Range : Type where
  pos : Nat
  len : Length
deriving DecidableEq

/-- Models `Range::full()`: starts at 0, length indefinite. -/
def Range.full : Range := ⟨0, .Indefinite⟩

/-- Models `Range::empty()`: starts at 0, length `Fixed(0)`. -/
def Range.empty : Range := ⟨0, .Fixed 0⟩

/-- Models `Range::bounded(start, end)` from src/src/loc/range.rs line 259. Note that
the source writes `pos: 0`, not `pos: start`; the `start` argument only enters the
length via the saturating subtraction. -/
def Range.bounded (start endIdx : Nat) : Range := ⟨0, .Fixed (endIdx - start)⟩

/-- Models `impl From<ops::Range<T>> for Range`: start becomes `pos`, the length is
the saturating difference `end - start`. -/
def Range.fromOpsRange (start endIdx : Nat) : Range := ⟨start, .Fixed (endIdx - start)⟩

/-- Models `impl From<ops::RangeToInclusive<T>> for Range`: the length is computed as
`1 + end` with unchecked addition, which wraps for `end = u64::MAX`. -/
def Range.fromOpsRangeToInclusive (endIdx : Nat) : Range := ⟨0, .Fixed (wrapAdd 1 endIdx)⟩

/-- Models `impl PartialEq for Range` (the `==` used by the crate): two `Fixed`
ranges compare by start and by saturated end, two `Indefinite` ranges by start,
and mixed ranges are never equal. -/
def Range.beq (self other : Range) : Bool :=
  match self.len, other.len with
  | .Fixed lhs, .Fixed rhs =>
      self.pos == other.pos && satAdd self.pos lhs == satAdd other.pos rhs
  | .Indefinite, .Indefinite => self.pos == other.pos
  | _, _ => false

/-- Models `impl PartialEq<()> for Range`: the emptiness check used by the tests of
the crate, true exactly when the length is `Fixed(0)`. -/
def Range.eqUnit (self : Range) : Bool :=
  match self.len with
  | .Fixed 0 => true
  | _ => false

/-- Models `Range::shrink` (and the by-value `Range::slice`, which defers to it):
reinterprets `other` as a sub-range inside the coordinate space of `self` and clips
it to the bound of `self`. -/
def Range.shrink (self other : Range) : Range :=
  match self.len, other.len with
  | .Fixed lhs, .Fixed rhs =>
      let delta := min other.pos lhs
      ⟨satAdd self.pos delta, .Fixed (min rhs (lhs - delta))⟩
  | .Fixed lhs, .Indefinite =>
      let delta := min other.pos lhs
      ⟨satAdd self.pos delta, .Fixed (lhs - delta)⟩
  | .Indefinite, rhs => ⟨satAdd self.pos other.pos, rhs⟩

/-- Models `Range::slice`, which defers to `Range::shrink`. -/
def Range.slice (self other : Range) : Range := self.shrink other

/-- `Range::shrink` with its two unchecked subtractions (the SAFETY comments in the
source) replaced by the checked `csub`: `none` would mean an underflow abort. -/
def Range.shrinkChecked (self other : Range) : Option Range :=
  match self.len, other.len with
  | .Fixed lhs, .Fixed rhs =>
      let delta := min other.pos lhs
      (csub lhs delta).map fun rem => ⟨satAdd self.pos delta, .Fixed (min rhs rem)⟩
  | .Fixed lhs, .Indefinite =>
      let delta := min other.pos lhs
      (csub lhs delta).map fun rem => ⟨satAdd self.pos delta, .Fixed rem⟩
  | .Indefinite, rhs => some ⟨satAdd self.pos other.pos, rhs⟩

/-- Models `Range::extend` (and the by-value `Range::join`, which defers to it): the
smallest range covering the absolute footprints of both inputs. -/
def Range.extend (self other : Range) : Range :=
  match self.len, other.len with
  | .Fixed lhs, .Fixed rhs =>
      let newEnd := max (satAdd self.pos lhs) (satAdd other.pos rhs)
      let newPos := min self.pos other.pos
      ⟨newPos, .Fixed (newEnd - newPos)⟩
  | _, _ => ⟨min self.pos other.pos, .Indefinite⟩

/-- Models `Range::join`, which defers to `Range::extend`. -/
def Range.join (self other : Range) : Range := self.extend other

/-- Models `Range::start()`: the inclusive start index, simply `pos`. -/
def Range.start (self : Range) : Nat := self.pos

/-- Models `Range::end()` (named `endPos` because `end` is reserved in Lean): the
saturated exclusive end `pos + len` for a `Fixed` length, `none` for `Indefinite`. -/
def Range.endPos (self : Range) : Option Nat :=
  match self.len with
  | .Fixed len => some (satAdd self.pos len)
  | .Indefinite => none

/-- Models `Range::end_in(max_len)`: the saturated end bounded to `max_len`, with
`Indefinite` resolved to `max_len`. -/
def Range.endIn (self : Range) (maxLen : Nat) : Nat :=
  match self.len with
  | .Fixed len => min (satAdd self.pos len) maxLen
  | .Indefinite => maxLen

/-- Models the end index written by `impl Debug for Range` (also used by `Display`):
the source computes `self.pos + len` with unchecked addition, which wraps in release
builds. `none` when no end index is written (length `Fixed(0)` prints the empty
marker, `Indefinite` prints an open end). -/
def Range.debugEndIndex (self : Range) : Option Nat :=
  match self.len with
  | .Fixed 0 => none
  | .Fixed len => some (wrapAdd self.pos len)
  | .Indefinite => none

/-- Models `Loc` from src/src/loc/mod.rs: a `Range` plus an optional source id. -/
structure Loc : Type where
  source : Option Nat
  range : Range
deriving DecidableEq

/-- Models `Loc::new()`: points to nothing. -/
def Loc.new : Loc := ⟨none, Range.empty⟩

/-- Models `Loc::encapsulate_range(id, range)`. -/
def Loc.encapsulateRange (id : Nat) (range : Range) : Loc := ⟨some id, range⟩

/-- Models the `PartialEq` implementation on `Loc`, which deliberately reports every
pair of locations as equal (the degenerate AST-simplification equality). Strict
field-wise comparison of two `Loc` values is Lean propositional equality instead. -/
def Loc.beq (_self _other : Loc) : Bool := true

/-- Models `Loc::extend` (and the by-value `Loc::join`, which defers to it): extends
the range only when the source fields match (equal ids, or both `none`); any other
combination is a no-op returning `self` unchanged. -/
def Loc.extend (self other : Loc) : Loc :=
  match self.source, other.source with
  | some lhs, some rhs =>
      if lhs = rhs then { self with range := self.range.extend other.range } else self
  | none, none => { self with range := self.range.extend other.range }
  | _, _ => self

/-- Models `Loc::join`, which defers to `Loc::extend`. -/
def Loc.join (self other : Loc) : Loc := self.extend other

theorem Range.beq_refl (r : Range) : r.beq r = true := by
  obtain ⟨pos, len⟩ := r
  cases len <;> simp [Range.beq]

/-- C1: for every range A (with a representable position) and every range B,
`A.shrink(B)` (equivalently `A.slice(B)`) stays inside the absolute footprint of A:
its start is at least `A.pos`; when `A.len` is `Fixed` its resolved end is at most
the resolved end of A; when B lies beyond the available length of A the result is
the empty range (length `Fixed(0)`) saturated at the boundary of A; and the
operation never underflows (the checked variant always succeeds). -/
theorem c1_shrink_inside (A B : Range) (hA : A.pos ≤ U64MAX) :
    A.pos ≤ (A.shrink B).pos
    ∧ (∀ la, A.len = .Fixed la →
        ∃ er, (A.shrink B).endPos = some er ∧ er ≤ satAdd A.pos la)
    ∧ (∀ la, A.len = .Fixed la → la ≤ B.pos →
        A.shrink B = ⟨satAdd A.pos la, .Fixed 0⟩)
    ∧ A.slice B = A.shrink B
    ∧ A.shrinkChecked B = some (A.shrink B)
    := by
  obtain ⟨p, la⟩ := A
  obtain ⟨q, lb⟩ := B
  simp only [U64MAX] at hA
  cases la with
  | Fixed a =>
    cases lb with
    | Fixed b =>
        refine ⟨?_, ?_, ?_, rfl, ?_⟩
        · simp only [Range.shrink, satAdd_eq_min, U64MAX]
          omega
        · intro la0 h
          injection h with h
          subst h
          refine ⟨_, rfl, ?_⟩
          simp only [Range.shrink, Range.endPos, satAdd_eq_min, U64MAX]
          omega
        · intro la0 h hle
          injection h with h
          subst h
          have hq : a ≤ q := hle
          have hmin : min q a = a := by omega
          simp [Range.shrink, hmin]
        · simp [Range.shrinkChecked, Range.shrink, csub, Nat.min_le_right]
    | Indefinite =>
        refine ⟨?_, ?_, ?_, rfl, ?_⟩
        · simp only [Range.shrink, satAdd_eq_min, U64MAX]
          omega
        · intro la0 h
          injection h with h
          subst h
          refine ⟨_, rfl, ?_⟩
          simp only [Range.shrink, Range.endPos, satAdd_eq_min, U64MAX]
          omega
        · intro la0 h hle
          injection h with h
          subst h
          have hq : a ≤ q := hle
          have hmin : min q a = a := by omega
          simp [Range.shrink, hmin]
        · simp [Range.shrinkChecked, Range.shrink, csub, Nat.min_le_right]
  | Indefinite =>
    refine ⟨?_, ?_, ?_, rfl, ?_⟩
    · cases lb <;> (simp only [Range.shrink, satAdd_eq_min, U64MAX]; omega)
    · intro la0 h
      simp at h
    · intro la0 h
      simp at h
    · cases lb <;> simp [Range.shrinkChecked, Range.shrink]

/-- C1 witness: shrinking `{2, Fixed(5)}` by `{10, Fixed(3)}` (a sub-range beyond
the available length) stays at or after position 2 and saturates to the empty range
at the boundary `7 = 2 + 5`. -/
theorem c1_witness :
    (⟨2, .Fixed 5⟩ : Range).pos ≤ ((⟨2, .Fixed 5⟩ : Range).shrink ⟨10, .Fixed 3⟩).pos
    ∧ (⟨2, .Fixed 5⟩ : Range).shrink ⟨10, .Fixed 3⟩ = ⟨7, .Fixed 0⟩ :=
  ⟨(c1_shrink_inside ⟨2, .Fixed 5⟩ ⟨10, .Fixed 3⟩ (by decide)).1,
   (c1_shrink_inside ⟨2, .Fixed 5⟩ ⟨10, .Fixed 3⟩ (by decide)).2.2.1 5 rfl (by decide)⟩

/-- C2: for ranges A and B with representable positions whose lengths are both
`Fixed`, `A.join(B)` and `B.join(A)` are equal (structurally, hence also under the
`PartialEq` of `Range`), the start of the result is the minimum of the two starts
and its resolved end is the maximum of the two saturating ends; if either length is
`Indefinite` the result has the minimum start and length `Indefinite`. -/
theorem c2_extend_commutative (A B : Range) (hA : A.pos ≤ U64MAX) (hB : B.pos ≤ U64MAX) :
    (∀ la lb, A.len = .Fixed la → B.len = .Fixed lb →
        A.join B = B.join A
        ∧ Range.beq (A.join B) (B.join A) = true
        ∧ (A.join B).pos = min A.pos B.pos
        ∧ (A.join B).endPos = some (max (satAdd A.pos la) (satAdd B.pos lb)))
    ∧ ((A.len = .Indefinite ∨ B.len = .Indefinite) →
        A.join B = ⟨min A.pos B.pos, .Indefinite⟩)
    := by
  obtain ⟨p, la⟩ := A
  obtain ⟨q, lb⟩ := B
  simp only [U64MAX] at hA hB
  cases la with
  | Fixed a =>
    cases lb with
    | Fixed b =>
        refine ⟨?_, ?_⟩
        · intro la0 lb0 h1 h2
          injection h1 with h1
          injection h2 with h2
          subst h1
          subst h2
          have hcomm :
              Range.join ⟨p, .Fixed a⟩ ⟨q, .Fixed b⟩
                = Range.join ⟨q, .Fixed b⟩ ⟨p, .Fixed a⟩ := by
            simp only [Range.join, Range.extend, Range.mk.injEq, Length.Fixed.injEq,
              satAdd_eq_min]
            omega
          refine ⟨hcomm, by rw [hcomm]; exact Range.beq_refl _, rfl, ?_⟩
          simp only [Range.join, Range.extend, Range.endPos, Option.some.injEq,
            satAdd_eq_min, U64MAX]
          omega
        · intro h
          rcases h with h | h <;> simp at h
    | Indefinite =>
        refine ⟨?_, ?_⟩
        · intro la0 lb0 h1 h2
          simp at h2
        · intro h
          rfl
  | Indefinite =>
    refine ⟨?_, ?_⟩
    · intro la0 lb0 h1 h2
      simp at h1
    · intro h
      cases lb <;> rfl

/-- C2 witness: joining `{1, Fixed(5)}` (end 6) and `{4, Fixed(4)}` (end 8) in
either order gives the same range, with start `min(1, 4) = 1` and end `8`. -/
theorem c2_witness :
    Range.join ⟨1, .Fixed 5⟩ ⟨4, .Fixed 4⟩ = Range.join ⟨4, .Fixed 4⟩ ⟨1, .Fixed 5⟩
    ∧ (Range.join ⟨1, .Fixed 5⟩ ⟨4, .Fixed 4⟩).pos = 1
    ∧ (Range.join ⟨1, .Fixed 5⟩ ⟨4, .Fixed 4⟩).endPos = some 8 :=
  ⟨((c2_extend_commutative ⟨1, .Fixed 5⟩ ⟨4, .Fixed 4⟩ (by decide) (by decide)).1
      5 4 rfl rfl).1,
   ((c2_extend_commutative ⟨1, .Fixed 5⟩ ⟨4, .Fixed 4⟩ (by decide) (by decide)).1
      5 4 rfl rfl).2.2.1,
   ((c2_extend_commutative ⟨1, .Fixed 5⟩ ⟨4, .Fixed 4⟩ (by decide) (by decide)).1
      5 4 rfl rfl).2.2.2⟩

/-- C7 counterexample: `Range::from(10..5)` is `{10, Fixed(0)}`, which is neither
structurally equal to `Range::empty() = {0, Fixed(0)}` nor equal to it under the
`PartialEq` of `Range` (the starts differ). -/
theorem c7_counterexample :
    Range.fromOpsRange 10 5 ≠ Range.empty
    ∧ Range.beq (Range.fromOpsRange 10 5) Range.empty = false := by
  refine ⟨?_, ?_⟩ <;> decide

/-- C7 amended: for `x > y`, `Range::from(x..y)` yields the empty-length range
positioned at `x` (`{x, Fixed(0)}`), which the emptiness comparison against `()`
accepts (it equals `Range::empty()` only when `x = 0`); for `x ≤ y` it equals the
manually built range with position `x` and length `Fixed(y - x)`. -/
theorem c7_from_ops_range (x y : Nat) :
    (y < x → Range.fromOpsRange x y = ⟨x, .Fixed 0⟩
        ∧ (Range.fromOpsRange x y).eqUnit = true)
    ∧ (x ≤ y → Range.fromOpsRange x y = ⟨x, .Fixed (y - x)⟩) := by
  refine ⟨?_, fun _ => rfl⟩
  intro h
  have hz : y - x = 0 := by omega
  refine ⟨?_, ?_⟩
  · simp [Range.fromOpsRange, hz]
  · simp [Range.fromOpsRange, Range.eqUnit, hz]

/-- C7 witness: `Range::from(10..5)` is `{10, Fixed(0)}` and passes the emptiness
check; `Range::from(3..7)` is `{3, Fixed(4)}`. -/
theorem c7_witness :
    (Range.fromOpsRange 10 5 = ⟨10, .Fixed 0⟩
        ∧ (Range.fromOpsRange 10 5).eqUnit = true)
    ∧ Range.fromOpsRange 3 7 = ⟨3, .Fixed 4⟩ :=
  ⟨(c7_from_ops_range 10 5).1 (by decide), (c7_from_ops_range 3 7).2 (by decide)⟩

/-- C8: evaluation at the failing inputs. `end()` and `end_in()` do saturate at
`u64::MAX`, but the Debug formatter computes `pos + len` with unchecked (wrapping)
addition — on `{u64::MAX, Fixed(2)}` it writes end index 1 instead of the saturated
`u64::MAX` — and `From<ops::RangeToInclusive>` computes `1 + end` unchecked, so
converting `..=u64::MAX` wraps the length to `Fixed(0)` instead of saturating. -/
theorem c8_unchecked_addition_eval :
    Range.debugEndIndex ⟨U64MAX, .Fixed 2⟩ = some 1
    ∧ satAdd U64MAX 2 = U64MAX
    ∧ Range.endPos ⟨U64MAX, .Fixed 2⟩ = some U64MAX
    ∧ Range.endIn ⟨U64MAX, .Fixed 2⟩ U64MAX = U64MAX
    ∧ Range.fromOpsRangeToInclusive U64MAX = ⟨0, .Fixed 0⟩
    ∧ wrapAdd 1 U64MAX = 0 := by
  refine ⟨?_, ?_, ?_, ?_, ?_, ?_⟩ <;> decide

/-- C9: `Loc::join` (and the in-place `Loc::extend` it defers to) extends the range
and keeps the source exactly when the two source fields match (equal ids, or both
`none`); for any mismatch (two different ids, or one `none` and one `some`) it
returns the left operand with both fields unchanged, under strict structural
equality. The degenerate `PartialEq` of `Loc` reports any two locations equal. -/
theorem c9_loc_join_no_op (a b : Loc) :
    Loc.join a b =
      (if a.source = b.source then { a with range := a.range.extend b.range } else a)
    ∧ Loc.beq a b = true := by
  refine ⟨?_, rfl⟩
  obtain ⟨s1, r1⟩ := a
  obtain ⟨s2, r2⟩ := b
  cases s1 <;> cases s2 <;> simp [Loc.join, Loc.extend]

/-- C10: `Range::bounded(start, end)` always has `pos = 0` (and hence `start() = 0`)
regardless of the `start` argument, with length the saturating difference
`end - start`; unlike `Range::from(start..end)`, whose position is `start`, so for
a nonzero `start` the two ranges are not equal under the `PartialEq` of `Range`. -/
theorem c10_bounded_ignores_start (s e : Nat) :
    (Range.bounded s e).pos = 0
    ∧ (Range.bounded s e).start = 0
    ∧ (Range.bounded s e).len = .Fixed (e - s)
    ∧ (Range.fromOpsRange s e).start = s
    ∧ (s ≠ 0 → Range.beq (Range.bounded s e) (Range.fromOpsRange s e) = false) := by
  refine ⟨rfl, rfl, rfl, rfl, ?_⟩
  intro h
  cases s with
  | zero => exact absurd rfl h
  | succ n => rfl

/-- C10 witness: `Range::bounded(3, 7)` starts at 0, not 3, and differs from
`Range::from(3..7)` under the `PartialEq` of `Range`. -/
theorem c10_witness :
    (Range.bounded 3 7).start = 0
    ∧ Range.beq (Range.bounded 3 7) (Range.fromOpsRange 3 7) = false :=
  ⟨(c10_bounded_ignores_start 3 7).2.1,
   (c10_bounded_ignores_start 3 7).2.2.2.2 (by decide)⟩

/-- Models `Needed` from src/src/nibble/error.rs: how much additional input could
turn an unmatched parse into a match. -/
inductive Needed : Type where
  | Bounded (min max : Nat)
  | AtLeast (min : Nat)
  | Unknown
deriving DecidableEq

/-- Models `NibbleError<F, E>` from src/src/nibble/error.rs (the shape used by the
slice-based parser variant under src/src/nibble/impls). The `F`ormatter component of
`Unmatched` is a display-only description of what was expected and carries no
information relevant to the control flow, so it is erased here; `Unmatched` keeps
its optional `Needed` hint and `Error` keeps the nested hard error. -/
inductive NibbleError (ε : Type) : Type where
  | Unmatched (needed : Option Needed)
  | Error (err : ε)
deriving DecidableEq

/-- Modelled from the spec: the type `Slice<E>`, the in-memory slice-backed parse
stream consumed by the `Parsable` implementations under src/src/nibble/impls. Its
defining module is not under src/ (only its callers and tests are). Per the spec,
section 4.4, a slice-backed stream pairs a stable per-buffer source id with the
element buffer, and the i-th element is located at the singleton range `[i, i+1)`;
the tests in src/src/nibble/impls/tag.rs construct it via `Slice::with_raw_id(id,
data)` and advance it with `slice(n..)`. Modelled as the source id, the remaining
elements, and the absolute offset of the first remaining element. -/
structure Slice (α : Type) : Type where
  source : Nat
  elems : List α
  off : Nat
deriving DecidableEq

/-- Modelled from the spec: `Slice::head_slice_loc(n)` as used by the tag parser in
src/src/nibble/impls/tag.rs (its definition is not under src/): returns at most `n`
head elements together with a `Loc` spanning exactly those elements, plus the
remaining stream advanced past them. The expected results recorded in the tests of
src/src/nibble/impls/tag.rs fix this behaviour: the whole 5-element tag parsed at
offset 0 yields the location `Loc::encapsulate_range(id, ..5)` and the remainder
`input.slice(5..)`. -/
def Slice.headSliceLoc {α : Type} (self : Slice α) (n : Nat) : (List α × Loc) × Slice α :=
  ((self.elems.take n,
    ⟨some self.source, ⟨self.off, .Fixed (self.elems.take n).length⟩⟩),
   ⟨self.source, self.elems.drop n, self.off + (self.elems.take n).length⟩)

/-- Models the element-comparison loop of the tag parser in
src/src/nibble/impls/tag.rs: walks the zipped head and tag and reports `true` as
soon as two elements diverge, `false` when the zipped part matches throughout. -/
def tagMismatch {α : Type} [DecidableEq α] : List α → List α → Bool
  | h :: hs, t :: ts => if h ≠ t then true else tagMismatch hs ts
  | _, _ => false

/-- Models `<T as Parsable<E>>::parse` for `T: Tag<E>` from
src/src/nibble/impls/tag.rs, with the tag literal `TAG` passed explicitly and the
parsed node represented by the `Loc` it is constructed with (`Self::with_loc(loc)`).
A diverging element is `Unmatched` with no `Needed` hint; a fully matching head
shorter than the tag is `Unmatched` with the exact bounded deficit; a complete
match succeeds with the head location and the advanced remainder. -/
def tagParse {α : Type} [DecidableEq α] (TAG : List α) (input : Slice α) :
    Except (NibbleError Empty) (Loc × Slice α) :=
  let head := (input.headSliceLoc TAG.length).1.1
  if tagMismatch head TAG then
    .error (.Unmatched none)
  else if TAG.length ≤ head.length then
    .ok ((input.headSliceLoc TAG.length).1.2, (input.headSliceLoc TAG.length).2)
  else
    .error (.Unmatched (some (.Bounded (TAG.length - head.length)
      (TAG.length - head.length))))

theorem tagMismatch_eq_false_iff {α : Type} [DecidableEq α] (hs ts : List α) :
    tagMismatch hs ts = false
      ↔ ∀ i, i < hs.length → i < ts.length → hs[i]? = ts[i]? := by
  induction hs generalizing ts with
  | nil => simp [tagMismatch]
  | cons h hs ih =>
    cases ts with
    | nil => simp [tagMismatch]
    | cons t ts =>
      simp only [tagMismatch]
      rcases eq_or_ne h t with he | he
      · subst he
        rw [if_neg (by simp)]
        rw [ih ts]
        constructor
        · intro hall i hi1 hi2
          cases i with
          | zero => simp
          | succ j =>
              simpa using hall j (by simpa using hi1) (by simpa using hi2)
        · intro hall j hj1 hj2
          simpa using hall (j + 1) (by simpa using hj1) (by simpa using hj2)
      · rw [if_pos he]
        constructor
        · intro hfalse
          exact absurd hfalse (by simp)
        · intro hall
          exfalso
          have h0 := hall 0 (by simp) (by simp)
          simp at h0
          exact he h0

/-- C3: for every tag literal `TAG` of length n and every slice-backed input, the
tag parser compares element by element. Any diverging compared element gives
`Unmatched` with no `Needed` hint; an input that ends after m < n fully matching
elements gives `Unmatched` with `Needed::Bounded(n-m, n-m)`; a full match succeeds,
consuming exactly n elements, with a `Loc` spanning the n consumed positions. -/
theorem c3_tag_parse {α : Type} [DecidableEq α] (TAG : List α) (input : Slice α) :
    ((∃ i, i < TAG.length ∧ i < input.elems.length ∧ input.elems[i]? ≠ TAG[i]?) →
        tagParse TAG input = .error (.Unmatched none))
    ∧ (input.elems.length < TAG.length →
        (∀ i, i < input.elems.length → input.elems[i]? = TAG[i]?) →
        tagParse TAG input = .error (.Unmatched (some (.Bounded
          (TAG.length - input.elems.length) (TAG.length - input.elems.length)))))
    ∧ (TAG.length ≤ input.elems.length →
        (∀ i, i < TAG.length → input.elems[i]? = TAG[i]?) →
        tagParse TAG input =
          .ok (⟨some input.source, ⟨input.off, .Fixed TAG.length⟩⟩,
               ⟨input.source, input.elems.drop TAG.length, input.off + TAG.length⟩)) := by
  have hlen : (input.elems.take TAG.length).length = min TAG.length input.elems.length :=
    List.length_take _ _
  refine ⟨?_, ?_, ?_⟩
  · rintro ⟨i, hiT, hiE, hne⟩
    have hmm : tagMismatch (input.elems.take TAG.length) TAG = true := by
      cases hb : tagMismatch (input.elems.take TAG.length) TAG with
      | true => rfl
      | false =>
          exfalso
          have hq := (tagMismatch_eq_false_iff _ _).mp hb i (by omega) hiT
          rw [List.getElem?_take_of_lt hiT] at hq
          exact hne hq
    simp [tagParse, Slice.headSliceLoc, hmm]
  · intro hlt hall
    have hl2 : (input.elems.take TAG.length).length = input.elems.length := by omega
    have hmm : tagMismatch (input.elems.take TAG.length) TAG = false := by
      refine (tagMismatch_eq_false_iff _ _).mpr fun i hi1 hi2 => ?_
      rw [List.getElem?_take_of_lt hi2]
      exact hall i (by omega)
    have h2 : ¬ TAG.length ≤ input.elems.length := by omega
    simp [tagParse, Slice.headSliceLoc, hmm, hl2, h2]
  · intro hge hall
    have hl2 : (input.elems.take TAG.length).length = TAG.length := by omega
    have hmm : tagMismatch (input.elems.take TAG.length) TAG = false := by
      refine (tagMismatch_eq_false_iff _ _).mpr fun i hi1 hi2 => ?_
      rw [List.getElem?_take_of_lt hi2]
      exact hall i hi2
    simp [tagParse, Slice.headSliceLoc, hmm, hl2]

/-- C3 witness: against the 5-element tag "Hello", the input "Hello" succeeds
consuming 5 elements with a location spanning positions 0 to 5; "Hell" is
`Unmatched` with `Bounded(1,1)`; "foo" is `Unmatched` with no `Needed`; the empty
input is `Unmatched` with `Bounded(5,5)`. -/
theorem c3_witness :
    tagParse ['H', 'e', 'l', 'l', 'o'] ⟨0, ['H', 'e', 'l', 'l', 'o'], 0⟩
      = .ok (⟨some 0, ⟨0, .Fixed 5⟩⟩, ⟨0, [], 5⟩)
    ∧ tagParse ['H', 'e', 'l', 'l', 'o'] ⟨0, ['H', 'e', 'l', 'l'], 0⟩
      = .error (.Unmatched (some (.Bounded 1 1)))
    ∧ tagParse ['H', 'e', 'l', 'l', 'o'] ⟨0, ['f', 'o', 'o'], 0⟩
      = .error (.Unmatched none)
    ∧ tagParse ['H', 'e', 'l', 'l', 'o'] ⟨0, [], 0⟩
      = .error (.Unmatched (some (.Bounded 5 5))) := by
  refine ⟨?_, ?_, ?_, ?_⟩
  · exact (c3_tag_parse _ _).2.2 (by decide) (by decide)
  · exact (c3_tag_parse _ _).2.1 (by decide) (by decide)
  · exact (c3_tag_parse _ _).1 ⟨0, by decide, by decide, by decide⟩
  · exact (c3_tag_parse _ _).2.1 (by decide) (by decide)

/-- Models `<Option<T> as Parsable<E>>::parse` from src/src/nibble/impls/option.rs,
with the parse function of the inner type `T` passed explicitly: a success is
wrapped in `some`, any `Unmatched` becomes a success carrying `none` at the
original input, and a hard `Error` propagates. -/
def optionParse {α β ε : Type}
    (p : Slice α → Except (NibbleError ε) (β × Slice α)) (input : Slice α) :
    Except (NibbleError ε) (Option β × Slice α) :=
  match p input with
  | .ok (res, rem) => .ok (some res, rem)
  | .error (.Unmatched _) => .ok (none, input)
  | .error (.Error err) => .error (.Error err)

/-- C4: the optional parser delegates to the parse function of the inner type; an
`Unmatched` with no `Needed` hint (no amount of input will fix it) is remapped to
a success carrying `none` at the unconsumed input; a hard `Error` propagates
unchanged; and a successful inner match is returned wrapped in `some`. -/
theorem c4_option_parse {α β ε : Type}
    (p : Slice α → Except (NibbleError ε) (β × Slice α)) (input : Slice α) :
    (p input = .error (.Unmatched none) →
        optionParse p input = .ok (none, input))
    ∧ (∀ e, p input = .error (.Error e) →
        optionParse p input = .error (.Error e))
    ∧ (∀ v rem, p input = .ok (v, rem) →
        optionParse p input = .ok (some v, rem)) := by
  refine ⟨?_, ?_, ?_⟩
  · intro h
    simp [optionParse, h]
  · intro e h
    simp [optionParse, h]
  · intro v rem h
    simp [optionParse, h]

/-- A tiny concrete inner parser used only to witness the optional parser: consumes
a leading 1, reports a hard error on a leading 2, and is unmatched otherwise. -/
def c4InnerParse : Slice Nat → Except (NibbleError String) (Nat × Slice Nat) :=
  fun s =>
    match s.elems with
    | 1 :: rest => .ok (1, ⟨s.source, rest, s.off + 1⟩)
    | 2 :: _ => .error (.Error "bad literal")
    | _ => .error (.Unmatched none)

/-- C4 witness: on an unmatched input the optional parser returns `none` without
consuming; on a hard error it propagates; on a match it wraps in `some`. -/
theorem c4_witness :
    optionParse c4InnerParse ⟨0, [9], 0⟩ = .ok (none, ⟨0, [9], 0⟩)
    ∧ optionParse c4InnerParse ⟨0, [2], 0⟩ = .error (.Error "bad literal")
    ∧ optionParse c4InnerParse ⟨0, [1], 0⟩ = .ok (some 1, ⟨0, [], 1⟩) :=
  ⟨(c4_option_parse c4InnerParse ⟨0, [9], 0⟩).1 rfl,
   (c4_option_parse c4InnerParse ⟨0, [2], 0⟩).2.1 "bad literal" rfl,
   (c4_option_parse c4InnerParse ⟨0, [1], 0⟩).2.2 1 ⟨0, [], 1⟩ rfl⟩

/-- Models `NibbleError<E1, E2>` from src/src/nibble/mod.rs, the two-way error split
of the by-reference streaming protocol variant: a syntax error in the recognized
construct versus a failure of the underlying input stream. The constructor names
carry an `Err` suffix; in the source they are `Syntax` and `Stream`. -/
inductive NibbleError2 (ε1 ε2 : Type) : Type where
  | SyntaxErr (err : ε1)
  | StreamErr (err : ε2)
deriving DecidableEq

/-- Models `Error<E>` from src/src/nibble/vec.rs: the error of the streaming `Vec`
parser, tagging the zero-based position of the repetition that failed together with
the causing inner error. -/
structure VecError (ε : Type) : Type where
  pos : Nat
  err : ε
deriving DecidableEq

/-- Models the accumulation loop of `<Vec<T> as Parsable<E>>::parse` from
src/src/nibble/impls/vec.rs (the slice-based variant), with the parse function of
the inner type passed explicitly. The Rust `while let` has no bound, so the loop
runs on explicit fuel; `none` means the fuel ran out. An inner success appends the
item and continues on the remainder; any `Unmatched` stops, returning the items
collected so far at the current input; a hard `Error` propagates as is (via
`auto_map`, which here converts the inner error by the identity). -/
def vecParseSliceLoop {α β ε : Type}
    (p : Slice α → Except (NibbleError ε) (β × Slice α)) :
    Nat → Slice α → List β → Option (Except (NibbleError ε) (List β × Slice α))
  | 0, _, _ => none
  | fuel + 1, input, res =>
    match p input with
    | .ok (item, rem) => vecParseSliceLoop p fuel rem (res ++ [item])
    | .error (.Unmatched _) => some (.ok (res, input))
    | .error (.Error err) => some (.error (.Error err))

/-- `<Vec<T> as Parsable<E>>::parse` of src/src/nibble/impls/vec.rs: the loop
started on an empty accumulator. -/
def vecParseSlice {α β ε : Type}
    (p : Slice α → Except (NibbleError ε) (β × Slice α)) (fuel : Nat)
    (input : Slice α) : Option (Except (NibbleError ε) (List β × Slice α)) :=
  vecParseSliceLoop p fuel input []

/-- Models the accumulation loop of `<Vec<T> as Parsable<E>>::parse` from
src/src/nibble/vec.rs (the by-reference streaming variant). The stream cursor that
the Rust code advances behind a shared reference is made explicit as a state value
of type `σ` threaded through the inner parse function. An inner `Ok(Some(item))`
appends and continues; `Ok(None)` (unmatched, including plain end of input) stops
with the items collected so far; a `Syntax` error is tagged via `map_syntax` with
the current item count (`Error { pos: res.len(), err }`); a `Stream` error
propagates untagged. Explicit fuel models the unbounded `while let`. -/
def vecParseStreamLoop {σ β ε1 ε2 : Type}
    (inner : σ → Except (NibbleError2 ε1 ε2) (Option β) × σ) :
    Nat → σ → List β → Option (Except (NibbleError2 (VecError ε1) ε2) (List β × σ))
  | 0, _, _ => none
  | fuel + 1, s, res =>
    match inner s with
    | (.ok (some item), s2) => vecParseStreamLoop inner fuel s2 (res ++ [item])
    | (.ok none, s2) => some (.ok (res, s2))
    | (.error (.SyntaxErr err), _) => some (.error (.SyntaxErr ⟨res.length, err⟩))
    | (.error (.StreamErr err), _) => some (.error (.StreamErr err))

/-- `<Vec<T> as Parsable<E>>::parse` of src/src/nibble/vec.rs: the loop started on
an empty accumulator. -/
def vecParseStream {σ β ε1 ε2 : Type}
    (inner : σ → Except (NibbleError2 ε1 ε2) (Option β) × σ) (fuel : Nat)
    (s : σ) : Option (Except (NibbleError2 (VecError ε1) ε2) (List β × σ)) :=
  vecParseStreamLoop inner fuel s []

theorem vecParseStreamLoop_syntax_err {σ β ε1 ε2 : Type}
    (inner : σ → Except (NibbleError2 ε1 ε2) (Option β) × σ) :
    ∀ (k : Nat) (traj : Nat → σ) (vals : Nat → β) (e : ε1) (res : List β) (fuel : Nat),
      (∀ i, i < k → inner (traj i) = (.ok (some (vals i)), traj (i + 1))) →
      (inner (traj k)).1 = .error (.SyntaxErr e) →
      k < fuel →
      vecParseStreamLoop inner fuel (traj 0) res
        = some (.error (.SyntaxErr ⟨res.length + k, e⟩)) := by
  intro k
  induction k with
  | zero =>
    intro traj vals e res fuel hsteps herr hfuel
    obtain ⟨f, rfl⟩ : ∃ f, fuel = f + 1 := ⟨fuel - 1, by omega⟩
    rcases he : inner (traj 0) with ⟨r, s2⟩
    rw [he] at herr
    simp only at herr
    subst herr
    simp [vecParseStreamLoop, he]
  | succ k ih =>
    intro traj vals e res fuel hsteps herr hfuel
    obtain ⟨f, rfl⟩ : ∃ f, fuel = f + 1 := ⟨fuel - 1, by omega⟩
    have h0 := hsteps 0 (by omega)
    simp only [vecParseStreamLoop, h0]
    have hrec := ih (fun i => traj (i + 1)) (fun i => vals (i + 1)) e (res ++ [vals 0]) f
      (fun i hi => hsteps (i + 1) (by omega)) herr (by omega)
    have hl : (res ++ [vals 0]).length + k = res.length + (k + 1) := by
      simp only [List.length_append, List.length_cons, List.length_nil]
      omega
    rw [hl] at hrec
    simpa using hrec

theorem vecParseSliceLoop_hard_err {α β ε : Type}
    (p : Slice α → Except (NibbleError ε) (β × Slice α)) :
    ∀ (k : Nat) (traj : Nat → Slice α) (vals : Nat → β) (e : ε) (res : List β) (fuel : Nat),
      (∀ i, i < k → p (traj i) = .ok (vals i, traj (i + 1))) →
      p (traj k) = .error (.Error e) →
      k < fuel →
      vecParseSliceLoop p fuel (traj 0) res = some (.error (.Error e)) := by
  intro k
  induction k with
  | zero =>
    intro traj vals e res fuel hsteps herr hfuel
    obtain ⟨f, rfl⟩ : ∃ f, fuel = f + 1 := ⟨fuel - 1, by omega⟩
    simp [vecParseSliceLoop, herr]
  | succ k ih =>
    intro traj vals e res fuel hsteps herr hfuel
    obtain ⟨f, rfl⟩ : ∃ f, fuel = f + 1 := ⟨fuel - 1, by omega⟩
    have h0 := hsteps 0 (by omega)
    simp only [vecParseSliceLoop, h0]
    have hrec := ih (fun i => traj (i + 1)) (fun i => vals (i + 1)) e (res ++ [vals 0]) f
      (fun i hi => hsteps (i + 1) (by omega)) herr (by omega)
    simpa using hrec

/-- C5 amended: in the by-reference streaming variant (src/src/nibble/vec.rs), when
the inner parse succeeds k times and the next invocation reports a `Syntax` (hard)
error, the `Vec` parse surfaces an error tagged with the zero-based repetition
index k that carries the original inner error as its cause. In the slice-based
variant (src/src/nibble/impls/vec.rs), the hard error of the (k+1)-th invocation
propagates unchanged, with no index tag. -/
theorem c5_vec_hard_error_index :
    (∀ (σ β ε1 ε2 : Type) (inner : σ → Except (NibbleError2 ε1 ε2) (Option β) × σ)
        (traj : Nat → σ) (vals : Nat → β) (k : Nat) (e : ε1) (fuel : Nat),
        (∀ i, i < k → inner (traj i) = (.ok (some (vals i)), traj (i + 1))) →
        (inner (traj k)).1 = .error (.SyntaxErr e) →
        k < fuel →
        vecParseStream inner fuel (traj 0) = some (.error (.SyntaxErr ⟨k, e⟩)))
    ∧ (∀ (α β ε : Type) (p : Slice α → Except (NibbleError ε) (β × Slice α))
        (traj : Nat → Slice α) (vals : Nat → β) (k : Nat) (e : ε) (fuel : Nat),
        (∀ i, i < k → p (traj i) = .ok (vals i, traj (i + 1))) →
        p (traj k) = .error (.Error e) →
        k < fuel →
        vecParseSlice p fuel (traj 0) = some (.error (.Error e))) := by
  refine ⟨?_, ?_⟩
  · intro σ β ε1 ε2 inner traj vals k e fuel hsteps herr hfuel
    simpa [vecParseStream] using
      vecParseStreamLoop_syntax_err inner k traj vals e [] fuel hsteps herr hfuel
  · intro α β ε p traj vals k e fuel hsteps herr hfuel
    exact vecParseSliceLoop_hard_err p k traj vals e [] fuel hsteps herr hfuel

/-- A tiny concrete inner parser used only to exercise the repetition parsers over
`Nat` elements: consumes a leading 7, reports the hard error 42 on a leading 9, and
is unmatched otherwise. -/
def c5InnerParse : Slice Nat → Except (NibbleError Nat) (Nat × Slice Nat) :=
  fun s =>
    match s.elems with
    | 7 :: rest => .ok (7, ⟨s.source, rest, s.off + 1⟩)
    | 9 :: _ => .error (.Error 42)
    | _ => .error (.Unmatched none)

/-- C5 counterexample: in the slice-based variant the claimed index tag does not
exist. A hard inner error on the 3rd attempted element (zero-based index 2, input
`[7, 7, 9]`) and one on the 1st attempted element (index 0, input `[9]`) surface
the identical untagged error value `Error(42)` — the original inner error
unchanged, carrying no repetition index. -/
theorem c5_counterexample :
    vecParseSlice c5InnerParse 10 ⟨0, [7, 7, 9], 0⟩ = some (.error (.Error 42))
    ∧ vecParseSlice c5InnerParse 10 ⟨0, [9], 0⟩ = some (.error (.Error 42)) := by
  refine ⟨?_, ?_⟩ <;> rfl

/-- A tiny concrete inner stream parser used only to witness the streaming `Vec`
parser: yields its state as element twice, then reports a syntax error. -/
def c5InnerStream : Nat → Except (NibbleError2 String Nat) (Option Nat) × Nat :=
  fun s => if s < 2 then (.ok (some s), s + 1) else (.error (.SyntaxErr "boom"), s)

/-- C5 witness: the streaming variant tags the syntax error of the third attempted
element with index 2 and the original cause; the slice variant at the same shape of
input surfaces the untagged inner error. -/
theorem c5_witness :
    vecParseStream c5InnerStream 5 0 = some (.error (.SyntaxErr ⟨2, "boom"⟩))
    ∧ vecParseSlice c5InnerParse 10 ⟨0, [7, 7, 9], 0⟩ = some (.error (.Error 42)) :=
  ⟨c5_vec_hard_error_index.1 Nat Nat String Nat c5InnerStream (fun i => i) (fun i => i)
      2 "boom" 5 (by intro i hi; interval_cases i <;> rfl) rfl (by decide),
   c5_vec_hard_error_index.2 Nat Nat Nat c5InnerParse
      (fun i => ⟨0, List.drop i [7, 7, 9], i⟩) (fun _ => 7)
      2 42 10 (by intro i hi; interval_cases i <;> rfl) rfl (by decide)⟩

/-- C6: when the first inner invocation reports unmatched (the repetition matches
zero times), the `Vec` parse succeeds with the empty collection, returns no error,
and consumes no input: the slice variant returns the very input it was given, and
the streaming variant returns the cursor state left by the unmatched attempt (which
equals the starting state whenever the inner parse does not consume on unmatch, as
hypothesized). End of input alone is just such an unmatched first attempt, so it
never fails the whole repetition. -/
theorem c6_vec_zero_matches :
    (∀ (α β ε : Type) (p : Slice α → Except (NibbleError ε) (β × Slice α))
        (input : Slice α) (nd : Option Needed) (fuel : Nat),
        p input = .error (.Unmatched nd) → 0 < fuel →
        vecParseSlice p fuel input = some (.ok ([], input)))
    ∧ (∀ (σ β ε1 ε2 : Type) (inner : σ → Except (NibbleError2 ε1 ε2) (Option β) × σ)
        (s : σ) (fuel : Nat),
        inner s = (.ok none, s) → 0 < fuel →
        vecParseStream inner fuel s = some (.ok ([], s))) := by
  refine ⟨?_, ?_⟩
  · intro α β ε p input nd fuel h hfuel
    obtain ⟨f, rfl⟩ : ∃ f, fuel = f + 1 := ⟨fuel - 1, by omega⟩
    simp [vecParseSlice, vecParseSliceLoop, h]
  · intro σ β ε1 ε2 inner s fuel h hfuel
    obtain ⟨f, rfl⟩ : ∃ f, fuel = f + 1 := ⟨fuel - 1, by omega⟩
    simp [vecParseStream, vecParseStreamLoop, h]

/-- A tiny concrete inner stream parser used only to witness the zero-match case of
the streaming repetition: always unmatched, never consuming. -/
def c6InnerStream : Unit → Except (NibbleError2 Nat Nat) (Option Nat) × Unit :=
  fun _ => (.ok none, ())

/-- C6 witness: over an input whose head matches zero times, both repetition
variants succeed with the empty collection at the unconsumed starting position. -/
theorem c6_witness :
    vecParseSlice c5InnerParse 5 ⟨0, [3], 0⟩ = some (.ok ([], ⟨0, [3], 0⟩))
    ∧ vecParseStream c6InnerStream 3 () = some (.ok ([], ())) :=
  ⟨c6_vec_zero_matches.1 Nat Nat Nat c5InnerParse ⟨0, [3], 0⟩ none 5 rfl (by decide),
   c6_vec_zero_matches.2 Unit Nat Nat Nat c6InnerStream () 3 rfl (by decide)⟩
